import Mathlib

/-!
Verification of the metadata-normalization and aggregation core of ff2zim.

Python strings are modelled as lists of characters (`PyStr`), and the string
primitives used by the source (`str.split`, `str.replace`, `str.strip`,
`str.lower`, `in`, `str.join`) are given faithful executable models.  A Python
function that can raise an exception is modelled as returning an `Option`,
with `none` standing for the raised exception.
-/

/-- A Python string, modelled as its list of characters. -/
abbrev PyStr := List Char

/-- Conversion from Lean string literals, used to state concrete instances. -/
def pyOfString (s : String) : PyStr := s.toList

/-- Model of Python whitespace as used by `str.strip()` / `float()`, restricted
to the ASCII whitespace characters (the inputs handled by this code are ASCII;
the Unicode cases of Python are not modelled). -/
def pyIsWS (c : Char) : Bool :=
  c = ' ' || c = '\t' || c = '\n' || c = '\r' || c = '\x0b' || c = '\x0c'

/-- The ASCII uppercase-to-lowercase table. -/
def lowerPairs : List (Char × Char) :=
  [('A', 'a'), ('B', 'b'), ('C', 'c'), ('D', 'd'), ('E', 'e'), ('F', 'f'),
   ('G', 'g'), ('H', 'h'), ('I', 'i'), ('J', 'j'), ('K', 'k'), ('L', 'l'),
   ('M', 'm'), ('N', 'n'), ('O', 'o'), ('P', 'p'), ('Q', 'q'), ('R', 'r'),
   ('S', 's'), ('T', 't'), ('U', 'u'), ('V', 'v'), ('W', 'w'), ('X', 'x'),
   ('Y', 'y'), ('Z', 'z')]

/-- Model of Python `str.lower()` on one character, restricted to ASCII:
uppercase letters map to the corresponding lowercase letter, everything else
is unchanged. -/
def pyToLower (c : Char) : Char := (lowerPairs.lookup c).getD c

/-- Model of Python decimal digits '0'..'9' (`str.isdigit` on ASCII). -/
def pyIsDigit (c : Char) : Bool :=
  c = '0' || c = '1' || c = '2' || c = '3' || c = '4' ||
  c = '5' || c = '6' || c = '7' || c = '8' || c = '9'

/-- `consHead c chunks` prepends `c` to the first chunk of a split result. -/
def consHead (c : Char) : List PyStr → List PyStr
  | [] => [[c]]
  | p :: ps => (c :: p) :: ps

/-- Fuelled worker for `pySplit`.  The fuel only serves to make the recursion
structural (so that terms reduce inside the kernel); `pySplit` always supplies
enough fuel, making the `0, s` fallback unreachable. -/
def pySplitF (sep : PyStr) : Nat → PyStr → List PyStr
  | _, [] => [[]]
  | 0, s => [s]
  | fuel + 1, c :: cs =>
      if sep ≠ [] ∧ sep.isPrefixOf (c :: cs) then
        [] :: pySplitF sep fuel (List.drop sep.length (c :: cs))
      else
        consHead c (pySplitF sep fuel cs)

/-- Model of Python `s.split(sep)` for a non-empty separator `sep`
(the source never splits on an empty separator). -/
def pySplit (sep s : PyStr) : List PyStr := pySplitF sep s.length s

/-- Model of Python `sep.join(chunks)`. -/
def pyJoin (sep : PyStr) : List PyStr → PyStr
  | [] => []
  | [x] => x
  | x :: y :: ys => x ++ sep ++ pyJoin sep (y :: ys)

/-- Model of Python `s.replace(old, new)` for non-empty `old`, via the
identity `s.replace(old, new) == new.join(s.split(old))` (both scan
left-to-right over non-overlapping occurrences). -/
def pyReplace (old new s : PyStr) : PyStr := pyJoin new (pySplit old s)

/-- Model of the Python substring test `needle in hay`. -/
def pyContains (needle hay : PyStr) : Bool :=
  if needle.isPrefixOf hay then true
  else
    match hay with
    | [] => false
    | _ :: t => pyContains needle t

/-- Model of Python `s.lstrip()` (whitespace only). -/
def pyStripLeft (s : PyStr) : PyStr := s.dropWhile pyIsWS

/-- Model of Python `s.strip()` (whitespace only): drop whitespace from the
left, then from the right. -/
def pyStrip (s : PyStr) : PyStr :=
  ((s.dropWhile pyIsWS).reverse.dropWhile pyIsWS).reverse

/-- Model of Python `s.endswith(c)` for a single character. -/
def pyEndsWith (c : Char) (s : PyStr) : Bool := s.getLast? = some c

/-- Numeric value of a list of decimal digit characters, most significant
first (the usual positional reading used by `float()`). -/
def digitsToNat (ds : PyStr) : Nat :=
  ds.foldl (fun n c => 10 * n + (c.toNat - 48)) 0

/-- An exact decimal value `num / 10 ^ scale`: the value of a decimal
literal before `float()` rounds it to IEEE-754 binary64 (the rounding is
applied by `roundB64` below). -/
abbrev DecValue := Int × Nat

/-- Worker for `pyFloat`: parse an unsigned decimal literal
`digits [. digits] [e [sign] digits]`, negated when `neg` is set. -/
def pyFloatUnsigned (neg : Bool) (s : PyStr) : Option DecValue :=
  let ip := s.takeWhile pyIsDigit
  let r1 := s.dropWhile pyIsDigit
  let fp := if r1.head? = some '.' then r1.tail.takeWhile pyIsDigit else []
  let r2 := if r1.head? = some '.' then r1.tail.dropWhile pyIsDigit else r1
  if ip = [] ∧ fp = [] then none
  else
    let m : Int := (digitsToNat (ip ++ fp) : Int)
    let m : Int := if neg then -m else m
    if r2 = [] then some (m, fp.length)
    else if r2.head? = some 'e' then
      let r3 := r2.tail
      let pos := ¬ (r3.head? = some '-')
      let r4 := if r3.head? = some '+' ∨ r3.head? = some '-' then r3.tail else r3
      let ed := r4.takeWhile pyIsDigit
      let r5 := r4.dropWhile pyIsDigit
      if ed = [] ∨ r5 ≠ [] then none
      else if pos then some (m * ((10 : Nat) ^ digitsToNat ed : Nat), fp.length)
      else some (m, fp.length + digitsToNat ed)
    else none

/-- The grammar part of Python `float(s)`, restricted to decimal literals
(optional surrounding whitespace, optional sign, digits with an optional
fractional part and an optional decimal exponent), parsed to its exact
`DecValue`.  `none` models a `ValueError`; the literals `inf`/`nan` and
digit underscores are not modelled.  CPython's `float()` rounds this exact
decimal value correctly to binary64, which `roundB64` below applies. -/
def pyFloat (s0 : PyStr) : Option DecValue :=
  let s := pyStrip s0
  if s.head? = some '+' then pyFloatUnsigned false s.tail
  else if s.head? = some '-' then pyFloatUnsigned true s.tail
  else pyFloatUnsigned false s

/-- Fuelled binary length: `bitlenF fuel n` is the number of binary digits
of `n` (0 for 0) for any `fuel ≥ n` — `n` halves to 0 in at most `n`
steps. -/
def bitlenF : Nat → Nat → Nat
  | 0, _ => 0
  | fuel + 1, n => if n = 0 then 0 else bitlenF fuel (n / 2) + 1

/-- The number of binary digits of `n` (0 for 0): `2 ^ (bitlen n - 1) ≤ n <
2 ^ bitlen n` for positive `n`. -/
def bitlen (n : Nat) : Nat := bitlenF n n

/-- Floor and remainder of `(num / den) / 2 ^ e`: returns `(q, r, d)` with
`num` shifted equal to `q * d + r` and `r < d`, so `(num / den) / 2 ^ e` is
exactly `q + r / d`. -/
def floorShift (num den : Nat) (e : Int) : Nat × Nat × Nat :=
  if 0 ≤ e then
    let d := den * 2 ^ e.toNat
    (num / d, num % d, d)
  else
    let n := num * 2 ^ (-e).toNat
    (n / den, n % den, den)

/-- Round the non-negative rational `q + r / d` (with `r < d`) to an
integer, round to nearest, ties to even. -/
def roundHalfEven (q r d : Nat) : Nat :=
  if 2 * r < d then q
  else if d < 2 * r then q + 1
  else if q % 2 = 0 then q else q + 1

/-- Correct rounding of the rational `num / den` (`den > 0`) to an IEEE-754
binary64 magnitude `(m, e)` of value `m * 2 ^ e`: round to nearest, ties to
even, with `m < 2 ^ 53` and `-1074 ≤ e ≤ 971` (subnormals at `e = -1074`,
values below half the least subnormal rounding to zero); `none` is overflow
to infinity.  The exponent guess from the binary lengths puts the floor of
`(num / den) / 2 ^ e0` in `[2 ^ 52, 2 ^ 54)`, so at most one upward
adjustment is needed before rounding at the final quantum; a mantissa
rounded up to `2 ^ 53` carries into the next binade. -/
def roundB64 (num den : Nat) : Option (Nat × Int) :=
  if num = 0 then some (0, 0)
  else
    let e0 : Int := (bitlen num : Int) - (bitlen den : Int) - 53
    let e1 : Int := if e0 < -1074 then -1074 else e0
    let (q1, r1, d1) := floorShift num den e1
    let (e2, q2, r2, d2) :=
      if 2 ^ 53 ≤ q1 then
        let (q, r, d) := floorShift num den (e1 + 1)
        (e1 + 1, q, r, d)
      else (e1, q1, r1, d1)
    let m := roundHalfEven q2 r2 d2
    let (m3, e3) := if m = 2 ^ 53 then (2 ^ 52, e2 + 1) else (m, e2)
    if 971 < e3 then none else some (m3, e3)

/-- Binary64 multiplication of a finite magnitude by an exact natural
multiplier (1000 and 1000000 convert to float exactly): the exact product,
rounded once; `none` is overflow to infinity. -/
def b64MulNat (me : Nat × Int) (k : Nat) : Option (Nat × Int) :=
  if 0 ≤ me.2 then roundB64 (me.1 * k * 2 ^ me.2.toNat) 1
  else roundB64 (me.1 * k) (2 ^ (-me.2).toNat)

/-- `int(x)` on a finite binary64 magnitude: truncation toward zero. -/
def b64TruncMag (me : Nat × Int) : Nat :=
  if 0 ≤ me.2 then me.1 * 2 ^ me.2.toNat else me.1 / 2 ^ (-me.2).toNat

/-- `int(float(n / 10 ^ f) * k)` for a non-negative exact decimal
`n / 10 ^ f`: round to binary64, multiply by `k` in binary64, truncate
toward zero; `none` models the `OverflowError` raised by `int` on an
infinite float. -/
def floatScaleTrunc (n f k : Nat) : Option Nat :=
  (roundB64 n (10 ^ f)).bind (fun x => (b64MulNat x k).map b64TruncMag)

/-- Final stages of `ff2zim.utils.str_to_int`, applied to the string with
all separators already removed: apply a trailing `k`/`m` multiplier and
compute `int(float(s) * multiplier)` (0 for the empty string), `float()`
rounding the literal to binary64, the product rounded again in binary64, and
`int` truncating toward zero.  `none` models a raised `ValueError`
(unparseable literal) or `OverflowError` (`int` of an infinite float). -/
def str_to_int_tail (s5 : PyStr) : Option Int :=
  let mult : Nat := if pyEndsWith 'k' s5 then 1000
    else if pyEndsWith 'm' s5 then 1000000 else 1
  let s6 := if pyEndsWith 'k' s5 ∨ pyEndsWith 'm' s5 then s5.dropLast else s5
  if s6 = [] then some 0
  else
    (pyFloat s6).bind (fun v =>
      (floatScaleTrunc v.1.natAbs v.2 mult).map (fun n =>
        if v.1 < 0 then -Int.ofNat n else Int.ofNat n))

/-- Stages of `ff2zim.utils.str_to_int` after the initial
`s.strip().lower()`: remove parentheses, convert all periods to commas when
more than one period is present, remove commas, then `str_to_int_tail`. -/
def str_to_int_core (s1 : PyStr) : Option Int :=
  let s2 := pyReplace ['('] [] s1
  let s3 := pyReplace [')'] [] s2
  let s4 := if 1 < s3.count '.' then pyReplace ['.'] [','] s3 else s3
  str_to_int_tail (pyReplace [','] [] s4)

/-- Model of `ff2zim.utils.str_to_int`. -/
def str_to_int (s : PyStr) : Option Int :=
  str_to_int_core (List.map pyToLower (pyStrip s))

/-!
## Metadata converters (`ff2zim.converter`)

`DefaultConverter.convert` and `FFNetConverter.convert` are modelled as
functions from a record of the raw (string-valued, possibly absent) metadata
fields they touch to a converted record; `none` models a raised exception
(`KeyError` on a missing required key, `ValueError` from `str_to_int`).
-/

/-- The sentinel `SLASH_PLACEHOLDER = "_ff2zim_SLASH_"`. -/
def SLASH_PLACEHOLDER : PyStr := pyOfString "_ff2zim_SLASH_"

/-- Strict lexicographic comparison of Python strings by character code,
as used by Python `sorted` on strings. -/
def pyStrLtB : PyStr → PyStr → Bool
  | [], [] => false
  | [], _ :: _ => true
  | _ :: _, [] => false
  | a :: as, b :: bs => if a < b then true else if b < a then false else pyStrLtB as bs

/-- The `≤` order on Python strings induced by `pyStrLtB`. -/
def pyStrLe (a b : PyStr) : Prop := pyStrLtB b a = false

instance : DecidableRel pyStrLe := fun a b =>
  inferInstanceAs (Decidable (pyStrLtB b a = false))

/-- The characters-field parse shared by all converter variants:
`data.get("characters", "").replace(", ", ",").split(",")` followed by
removing the first `""` entry if one is present. -/
def parseCharacters (s : PyStr) : List PyStr :=
  (pySplit [','] (pyReplace (pyOfString ", ") [','] s)).erase []

/-- The inner loop of the ships parse: for each known character name
containing `/` that occurs in the ship entry, substitute its `/` with
`SLASH_PLACEHOLDER` (`ship = ship.replace(name, new_name)`; replacing a
non-occurring pattern being the identity, the `name in ship` guard of the
source is kept for fidelity). -/
def substAll (chars : List PyStr) (ship : PyStr) : PyStr :=
  chars.foldl
    (fun sh name =>
      if pyContains ['/'] name = false then sh
      else if pyContains name sh then
        pyReplace name (pyReplace ['/'] SLASH_PLACEHOLDER name) sh
      else sh)
    ship

/-- One ship entry: substitute sentinels, split on `/`, sort
(`sorted(ship.split("/"))`), then restore the sentinel back to `/` in each
member. -/
def convertShipEntry (chars : List PyStr) (ship : PyStr) : List PyStr :=
  (List.insertionSort pyStrLe (pySplit ['/'] (substAll chars ship))).map
    (fun sm => pyReplace SLASH_PLACEHOLDER ['/'] sm)

/-- The ships-field parse shared by all converter variants:
`data.get("ships", "").replace(", ", ",").split(",")`, skipping entries for
which `not ship or not ship[0]` holds (for a string that is exactly the empty
entries, since `ship[0]` of a non-empty string is a non-empty single-character
string), and converting each remaining entry. -/
def parseShips (chars : List PyStr) (s : PyStr) : List (List PyStr) :=
  (pySplit [','] (pyReplace (pyOfString ", ") [','] s)).filterMap
    (fun ship => if ship = [] then none else some (convertShipEntry chars ship))

/-- The raw metadata fields read by the modelled converters.  A field holds
`none` when the corresponding key is absent from the metadata dict. -/
structure RawMeta where
  numWords : Option PyStr
  numChapters : Option PyStr
  characters : Option PyStr
  ships : Option PyStr
  favs : Option PyStr
  follows : Option PyStr
  reviews : Option PyStr
  authorId : Option PyStr
  storyId : Option PyStr

/-- The fields produced by `DefaultConverter.convert`. -/
structure DefaultMeta where
  numWords : Int
  numChapters : Int
  characters : List PyStr
  ships : List (List PyStr)
deriving DecidableEq

/-- Model of `DefaultConverter.convert`: `data["numWords"]` and
`data["numChapters"]` are direct subscripts (a missing key raises `KeyError`,
modelled by `none`), the other fields use `data.get` defaults. -/
def defaultConvert (d : RawMeta) : Option DefaultMeta := do
  let nwS ← d.numWords
  let nw ← str_to_int nwS
  let ncS ← d.numChapters
  let nc ← str_to_int ncS
  let chars := parseCharacters (d.characters.getD [])
  let ships := parseShips chars (d.ships.getD [])
  some ⟨nw, nc, chars, ships⟩

/-- The fields produced by `FFNetConverter.convert`. -/
structure FFNetMeta where
  authorId : PyStr
  favs : Int
  follows : Int
  numChapters : Int
  numWords : Int
  reviews : Int
  storyId : PyStr
  characters : List PyStr
  ships : List (List PyStr)
deriving DecidableEq

/-- Model of `FFNetConverter.convert`: every count field uses
`data.get(key, "0")`, `authorId`/`storyId` default to `"???"`, and the
characters/ships parse is shared with the default converter. -/
def ffnetConvert (d : RawMeta) : Option FFNetMeta := do
  let authorId := d.authorId.getD (pyOfString "???")
  let favs ← str_to_int (d.favs.getD ['0'])
  let follows ← str_to_int (d.follows.getD ['0'])
  let numChapters ← str_to_int (d.numChapters.getD ['0'])
  let numWords ← str_to_int (d.numWords.getD ['0'])
  let reviews ← str_to_int (d.reviews.getD ['0'])
  let storyId := d.storyId.getD (pyOfString "???")
  let chars := parseCharacters (d.characters.getD [])
  let ships := parseShips chars (d.ships.getD [])
  some ⟨authorId, favs, follows, numChapters, numWords, reviews, storyId, chars, ships⟩

/-!
## Cross-project aggregation (`ff2zim.zimbuild.build_zim`, lines 120, 152-188)

The metadata-collection loop of `build_zim` is modelled over the list of
per-project metadata lists (`proj.collect_metadata(include_subprojects=False)`
for each project of `[project] + project.get_subprojects()`).  Python dicts
are modelled as association lists in insertion order; a story is keyed by the
formatted string `"{siteabbrev}-{storyId}"` exactly as in the source.
Category aliases were already resolved by `collect_metadata`, so the
`category` field of an entry is its resolved category.
-/

/-- The fields of one collected metadata entry used by the aggregation loop. -/
structure MetaEntry where
  siteabbrev : String
  storyId : String
  category : String
  authorId : String
  author : String
  authorUrl : String
  authorHTML : String
deriving DecidableEq

/-- `"{}-{}".format(e["siteabbrev"], e["storyId"])`. -/
def fsidOf (e : MetaEntry) : String := e.siteabbrev ++ "-" ++ e.storyId

/-- One author entry of `authordata`. -/
structure AuthorEntry where
  name : String
  id : String
  url : String
  html : String
  stories : List String
deriving DecidableEq

/-- The mutable state of the collection loop: `id2meta`, `category2ids` and
`authordata`, each a dict in insertion order. -/
structure AggState where
  id2meta : List (String × MetaEntry)
  category2ids : List (String × List String)
  authordata : List (String × AuthorEntry)
deriving DecidableEq

/-- The initial state: `category2ids = {"ALL": []}`, the rest empty. -/
def initAggState : AggState := ⟨[], [(("ALL" : String), ([] : List String))], []⟩

/-- `d[k].append(v)` on a dict whose key `k` is present (keys are unique by
construction, so mapping over all pairs updates exactly the entry of `k`). -/
def alistAppendAt (k : String) (v : String) (d : List (String × List String)) :
    List (String × List String) :=
  d.map (fun p => if p.1 = k then (p.1, p.2 ++ [v]) else p)

/-- The body of the collection loop for one entry `e`: skip if
`storyid in id2meta` (first write wins), otherwise insert into `id2meta`,
index into `category2ids[category]` and `category2ids["ALL"]`, and create or
extend the author entry. -/
def aggStep (st : AggState) (e : MetaEntry) : AggState :=
  let sid := fsidOf e
  if (st.id2meta.lookup sid).isSome then st
  else
    let id2meta := st.id2meta ++ [(sid, e)]
    let cats0 :=
      if (st.category2ids.lookup e.category).isSome then
        alistAppendAt e.category sid st.category2ids
      else
        st.category2ids ++ [(e.category, [sid])]
    let cats := alistAppendAt "ALL" sid cats0
    let aid := e.siteabbrev ++ "-" ++ e.authorId
    let authordata :=
      if (st.authordata.lookup aid).isSome then
        st.authordata.map
          (fun p => if p.1 = aid then
            (p.1, ⟨p.2.name, p.2.id, p.2.url, p.2.html, p.2.stories ++ [sid]⟩)
          else p)
      else
        st.authordata ++ [(aid, ⟨e.author, e.authorId, e.authorUrl, e.authorHTML, [sid]⟩)]
    ⟨id2meta, cats, authordata⟩

/-- The full collection loop over the ordered project list, each project
contributing its own metadata entries in order. -/
def aggregateProjects (ps : List (List MetaEntry)) : AggState :=
  ps.foldl (fun st proj => proj.foldl aggStep st) initAggState

/-- Concatenation of the per-project entry lists in traversal order. -/
def concatAll (ps : List (List MetaEntry)) : List MetaEntry :=
  ps.foldr (fun a b => a ++ b) []

/-- The category list of the aggregated state for key `k`
(`category2ids[k]`, the empty list if the key is absent). -/
def catListOf (st : AggState) (k : String) : List String :=
  (st.category2ids.lookup k).getD []

/-- A project tree: its own collected metadata entries and its subprojects
(the parsed lines of `subprojects.txt`, in file order). -/
inductive ProjTree where
  | node : List MetaEntry → List ProjTree → ProjTree

/-- A forest of subprojects. -/
abbrev ProjForest := List ProjTree

mutual

/-- Model of `Project.get_subprojects`: for each subproject line, the
subproject itself followed by its own subprojects, recursively (pre-order). -/
def getSubprojects : ProjTree → List ProjTree
  | .node _ subs => walkForest subs

/-- The recursive walk of a subproject list. -/
def walkForest : ProjForest → List ProjTree
  | [] => []
  | sp :: rest => sp :: (getSubprojects sp ++ walkForest rest)

end

/-- Model of `projects = [project] + project.get_subprojects()`
(`build_zim`, line 120). -/
def projectsOf (t : ProjTree) : List ProjTree := t :: getSubprojects t

/-- The own metadata entries of a project node. -/
def metaOf : ProjTree → List MetaEntry
  | .node m _ => m

/-- Aggregation of a whole project tree: the collection loop applied over
the visited project list in order. -/
def aggregateTree (t : ProjTree) : AggState :=
  aggregateProjects ((projectsOf t).map metaOf)

/-!
## Category aliases (`Project.add_category_alias` / `Project.collect_metadata`)

The persisted JSON object `aliases.json` is modelled as an association list in
insertion order with unique keys (a Python dict).
-/

/-- Model of `aliases[from_] = to` inside `add_category_alias`: overwrite the
value in place when the key exists, otherwise append the new pair. -/
def addAlias (t : List (String × String)) (f v : String) : List (String × String) :=
  if (t.lookup f).isSome then t.map (fun p => if p.1 = f then (p.1, v) else p)
  else t ++ [(f, v)]

/-- Model of `aliases.get(category, category)` as used by
`collect_metadata` to resolve a category. -/
def resolveAlias (t : List (String × String)) (c : String) : String :=
  (t.lookup c).getD c

/-!
## Target list (`Project.add_target` / `Project.list_targets`)

`Target(url)` resolves a reference through the external fanficfare library;
resolution is therefore a parameter `resolve` mapping a (stripped) reference
line to its `TargetId`.  `Target.__eq__` compares the `(abbrev, id)` pair
only, which is `TargetId` equality.  The target file is modelled as its list
of lines; `add_target` appends `t.url + "\n"`, i.e. one line (references are
assumed newline-free).
-/

/-- The identity of a target: the `(abbrev, id)` pair compared by
`Target.__eq__`. -/
structure TargetId where
  abbr : PyStr
  ident : PyStr
deriving DecidableEq

/-- Model of `Project.add_target`: unconditionally append the reference to
`target_urls.txt`. -/
def addTargetLine (lines : List PyStr) (url : PyStr) : List PyStr := lines ++ [url]

/-- The body of the `list_targets` read loop for one line: strip it, skip
comments and blanks, resolve it to a target, and keep it only if an equal
target was not already collected. -/
def listTargetsStep (resolve : PyStr → TargetId) (targets : List TargetId)
    (line : PyStr) : List TargetId :=
  let l := pyStrip line
  if List.isPrefixOf ['#'] l then targets
  else if l = [] then targets
  else
    let t := resolve l
    if t ∈ targets then targets else targets ++ [t]

/-- Model of `Project.list_targets(exclude_existing=False)`. -/
def listTargets (resolve : PyStr → TargetId) (lines : List PyStr) : List TargetId :=
  lines.foldl (listTargetsStep resolve) []

/-!
## Concrete example data used in the claim statements
-/

/-- A root-project metadata entry for the story keyed `"ffnet-42"`. -/
def entA : MetaEntry := ⟨"ffnet", "42", "Drama", "a1", "Alice", "uA", "hA"⟩

/-- A subproject metadata entry for the same story `"ffnet-42"` with
different metadata. -/
def entB : MetaEntry := ⟨"ffnet", "42", "Humor", "a2", "Bob", "uB", "hB"⟩

/-- A metadata entry whose own category is literally `"ALL"`. -/
def entALL : MetaEntry := ⟨"ffnet", "7", "ALL", "a3", "Carol", "uC", "hC"⟩

/-!
## Toolkit lemmas for the string model
-/

theorem consHead_ne_nil (c : Char) (P : List PyStr) : consHead c P ≠ [] := by
  cases P <;> simp [consHead]

theorem pySplitF_ne_nil (sep : PyStr) (fuel : Nat) (s : PyStr) :
    pySplitF sep fuel s ≠ [] := by
  match fuel, s with
  | _, [] => simp [pySplitF]
  | 0, _ :: _ => simp [pySplitF]
  | fuel + 1, c :: cs =>
      rw [pySplitF]
      split
      · simp
      · exact consHead_ne_nil _ _

theorem pySplitF_fuel (sep : PyStr) :
    ∀ f g s, s.length ≤ f → s.length ≤ g → pySplitF sep f s = pySplitF sep g s := by
  intro f
  induction f with
  | zero =>
      intro g s hf _
      have : s = [] := List.length_eq_zero.mp (Nat.le_zero.mp hf)
      subst this
      cases g <;> rfl
  | succ f ih =>
      intro g s hf hg
      match s with
      | [] => cases g <;> rfl
      | c :: cs =>
          match g with
          | 0 => simp at hg
          | g + 1 =>
              rw [pySplitF, pySplitF]
              split
              · next h =>
                  have hsep : 1 ≤ sep.length := by
                    cases hs : sep with
                    | nil => exact absurd hs h.1
                    | cons a as => simp
                  have hlen : (List.drop sep.length (c :: cs)).length ≤ f := by
                    simp only [List.length_drop, List.length_cons]
                    simp only [List.length_cons] at hf
                    omega
                  have hlen' : (List.drop sep.length (c :: cs)).length ≤ g := by
                    simp only [List.length_drop, List.length_cons]
                    simp only [List.length_cons] at hg
                    omega
                  rw [ih g _ hlen hlen']
              · have h1 : cs.length ≤ f := by simp only [List.length_cons] at hf; omega
                have h2 : cs.length ≤ g := by simp only [List.length_cons] at hg; omega
                rw [ih g cs h1 h2]

theorem pySplit_ne_nil (sep s : PyStr) : pySplit sep s ≠ [] :=
  pySplitF_ne_nil sep s.length s

theorem pySplit_nil_str (sep : PyStr) : pySplit sep [] = [[]] := rfl

theorem pySplit_cons_pos (sep : PyStr) (c : Char) (cs : PyStr)
    (h1 : sep ≠ []) (h2 : sep.isPrefixOf (c :: cs) = true) :
    pySplit sep (c :: cs) = [] :: pySplit sep (List.drop sep.length (c :: cs)) := by
  have hsep : 1 ≤ sep.length := by
    cases hs : sep with
    | nil => exact absurd hs h1
    | cons a as => simp
  show pySplitF sep (c :: cs).length (c :: cs) = _
  simp only [List.length_cons]
  rw [pySplitF, if_pos ⟨h1, h2⟩]
  congr 1
  exact pySplitF_fuel sep cs.length (List.drop sep.length (c :: cs)).length _
    (by simp only [List.length_drop, List.length_cons]; omega) (Nat.le_refl _)

theorem pySplit_cons_neg (sep : PyStr) (c : Char) (cs : PyStr)
    (h : ¬(sep ≠ [] ∧ sep.isPrefixOf (c :: cs) = true)) :
    pySplit sep (c :: cs) = consHead c (pySplit sep cs) := by
  show pySplitF sep (c :: cs).length (c :: cs) = _
  simp only [List.length_cons]
  rw [pySplitF, if_neg h]
  rfl

theorem isPrefixOfBool_iff (l s : PyStr) : l.isPrefixOf s = true ↔ l <+: s := by
  induction l generalizing s with
  | nil =>
      constructor
      · intro _
        exact List.nil_prefix
      · intro _
        cases s <;> rfl
  | cons a as ih =>
      cases s with
      | nil =>
          constructor
          · intro h
            exact absurd h (by rw [show (a :: as).isPrefixOf [] = false from rfl]; simp)
          · intro h
            rw [List.prefix_nil] at h
            cases h
      | cons b bs =>
          rw [show (a :: as).isPrefixOf (b :: bs) = (a == b && as.isPrefixOf bs) from rfl,
            Bool.and_eq_true, beq_iff_eq, ih, List.cons_prefix_cons]

theorem pySplit_single_cons (a c : Char) (cs : PyStr) :
    pySplit [a] (c :: cs) =
      if c = a then [] :: pySplit [a] cs else consHead c (pySplit [a] cs) := by
  by_cases hca : c = a
  · subst hca
    rw [if_pos rfl, pySplit_cons_pos [c] c cs (by simp)
      ((isPrefixOfBool_iff _ _).mpr (List.cons_prefix_cons.mpr ⟨rfl, List.nil_prefix⟩))]
    rfl
  · rw [if_neg hca, pySplit_cons_neg]
    rintro ⟨-, hpre⟩
    have := List.cons_prefix_cons.mp ((isPrefixOfBool_iff _ _).mp hpre)
    exact hca this.1.symm

theorem pyJoin_consHead (new : PyStr) (c : Char) (P : List PyStr) (h : P ≠ []) :
    pyJoin new (consHead c P) = c :: pyJoin new P := by
  match P with
  | [] => exact absurd rfl h
  | [p] => rfl
  | p :: q :: ps => rfl

theorem pyJoin_cons_empty (new : PyStr) (P : List PyStr) (h : P ≠ []) :
    pyJoin new ([] :: P) = new ++ pyJoin new P := by
  match P with
  | [] => exact absurd rfl h
  | p :: ps => rfl

theorem pyReplace_single_subst (a b : Char) (s : PyStr) :
    pyReplace [a] [b] s = s.map (fun c => if c = a then b else c) := by
  induction s with
  | nil => rfl
  | cons c cs ih =>
      unfold pyReplace at ih ⊢
      rw [pySplit_single_cons]
      by_cases hca : c = a
      · rw [if_pos hca, pyJoin_cons_empty _ _ (pySplit_ne_nil _ _), ih]
        simp [hca]
      · rw [if_neg hca, pyJoin_consHead _ _ _ (pySplit_ne_nil _ _), ih]
        simp [hca]

theorem pyReplace_single_del (a : Char) (s : PyStr) :
    pyReplace [a] [] s = s.filter (fun c => decide (c ≠ a)) := by
  induction s with
  | nil => rfl
  | cons c cs ih =>
      unfold pyReplace at ih ⊢
      rw [pySplit_single_cons]
      by_cases hca : c = a
      · rw [if_pos hca, pyJoin_cons_empty _ _ (pySplit_ne_nil _ _), ih]
        simp [hca]
      · rw [if_neg hca, pyJoin_consHead _ _ _ (pySplit_ne_nil _ _), ih]
        simp [hca]

theorem pySplit_not_infix (sep s : PyStr) (h1 : sep ≠ []) (h2 : ¬ sep <:+: s) :
    pySplit sep s = [s] := by
  induction s with
  | nil => rfl
  | cons c cs ih =>
      rw [pySplit_cons_neg]
      · rw [ih (fun hc => h2 (hc.trans (List.suffix_cons c cs).isInfix))]
        rfl
      · rintro ⟨-, hpre⟩
        exact h2 ((isPrefixOfBool_iff _ _).mp hpre).isInfix

theorem pySplit_not_mem (a : Char) (s : PyStr) (h : a ∉ s) : pySplit [a] s = [s] := by
  refine pySplit_not_infix [a] s (by simp) (fun hc => h ?_)
  exact hc.subset (by simp)

theorem pySplit_boundary (s0 : Char) (srest x t : PyStr) (hx : s0 ∉ x) :
    pySplit (s0 :: srest) (x ++ (s0 :: srest) ++ t) = x :: pySplit (s0 :: srest) t := by
  induction x with
  | nil =>
      simp only [List.nil_append]
      rw [List.cons_append, pySplit_cons_pos (s0 :: srest) s0 (srest ++ t) (by simp)]
      · rw [← List.cons_append, List.drop_left]
      · rw [isPrefixOfBool_iff, ← List.cons_append]
        exact List.prefix_append _ _
  | cons c x' ih =>
      have hcs : c ≠ s0 := fun hc => hx (by simp [hc])
      rw [List.cons_append, List.cons_append, pySplit_cons_neg]
      · rw [ih (fun hm => hx (List.mem_cons_of_mem c hm))]
        rfl
      · rintro ⟨-, hpre⟩
        have := List.cons_prefix_cons.mp ((isPrefixOfBool_iff _ _).mp hpre)
        exact hcs this.1.symm

theorem pySplit_join (s0 : Char) (srest : PyStr) (names : List PyStr)
    (h : ∀ n ∈ names, s0 ∉ n) (hne : names ≠ []) :
    pySplit (s0 :: srest) (pyJoin (s0 :: srest) names) = names := by
  induction names with
  | nil => exact absurd rfl hne
  | cons x rest ih =>
      match rest with
      | [] =>
          show pySplit (s0 :: srest) x = [x]
          refine pySplit_not_infix _ _ (by simp) (fun hc => ?_)
          exact h x (by simp) (hc.subset (by simp))
      | y :: ys =>
          show pySplit (s0 :: srest) (x ++ (s0 :: srest) ++ pyJoin (s0 :: srest) (y :: ys)) = _
          rw [pySplit_boundary s0 srest x _ (h x (by simp)),
            ih (fun n hn => h n (List.mem_cons_of_mem x hn)) (by simp)]

theorem pySplit_join_comma_chars (names : List PyStr)
    (h : ∀ n ∈ names, ',' ∉ n) (hne : names ≠ []) :
    pySplit [','] (pyJoin [','] names) = names :=
  pySplit_join ',' [] names h hne

theorem dropWhileWS_append_single (c : Char) (hc : pyIsWS c = false) (s : PyStr) :
    (s ++ [c]).dropWhile pyIsWS = s.dropWhile pyIsWS ++ [c] := by
  induction s with
  | nil => simp [List.dropWhile_cons, hc]
  | cons a s' ih =>
      rw [List.cons_append, List.dropWhile_cons, List.dropWhile_cons]
      by_cases ha : pyIsWS a
      · simp only [ha, if_true]
        exact ih
      · simp only [ha, Bool.false_eq_true, if_false, List.cons_append]

theorem pyStrip_append_single (c : Char) (hc : pyIsWS c = false) (s : PyStr) :
    pyStrip (s ++ [c]) = pyStripLeft s ++ [c] := by
  unfold pyStrip pyStripLeft
  rw [dropWhileWS_append_single c hc s, List.reverse_append]
  show ((c :: (s.dropWhile pyIsWS).reverse).dropWhile pyIsWS).reverse = _
  rw [List.dropWhile_cons]
  simp only [hc, Bool.false_eq_true, if_false, List.reverse_cons, List.reverse_reverse]

theorem dropWhile_eq_self_of_neg (p : Char → Bool) (s : PyStr)
    (h : ∀ c ∈ s, p c = false) : s.dropWhile p = s := by
  cases s with
  | nil => rfl
  | cons a s' =>
      rw [List.dropWhile_cons]
      simp only [h a (by simp), Bool.false_eq_true, if_false]

theorem pyStrip_eq_self (s : PyStr) (h : ∀ c ∈ s, pyIsWS c = false) : pyStrip s = s := by
  unfold pyStrip
  rw [dropWhile_eq_self_of_neg _ _ h,
    dropWhile_eq_self_of_neg _ _ (fun c hc => h c (by simpa using hc)),
    List.reverse_reverse]

theorem map_eq_self_of_fix (f : Char → Char) (s : PyStr)
    (h : ∀ c ∈ s, f c = c) : s.map f = s := by
  induction s with
  | nil => rfl
  | cons a s' ih =>
      rw [List.map_cons, h a (by simp), ih (fun c hc => h c (List.mem_cons_of_mem a hc))]

theorem lookup_mem_char {t : List (Char × Char)} {k v : Char}
    (h : t.lookup k = some v) : (k, v) ∈ t := by
  induction t with
  | nil => cases h
  | cons p t ih =>
      obtain ⟨a, b⟩ := p
      by_cases hk : k = a
      · subst hk
        rw [List.lookup_cons_self] at h
        injection h with h
        subst h
        exact List.mem_cons_self _ _
      · have hne : (k == a) = false := beq_eq_false_iff_ne.mpr hk
        have : List.lookup k ((a, b) :: t) = List.lookup k t := by
          show (match k == a with
            | true => some b
            | false => List.lookup k t) = List.lookup k t
          rw [hne]
        rw [this] at h
        exact List.mem_cons_of_mem _ (ih h)

theorem pyToLower_eq_dot_iff (c : Char) : pyToLower c = '.' ↔ c = '.' := by
  constructor
  · intro h
    unfold pyToLower at h
    cases hl : lowerPairs.lookup c with
    | none => rw [hl] at h; exact h
    | some v =>
        rw [hl] at h
        have hv : v = '.' := h
        subst hv
        have hmem := lookup_mem_char hl
        have : ∀ p ∈ lowerPairs, p.2 ≠ '.' := by decide
        exact absurd rfl (this _ hmem)
  · intro h
    subst h
    decide

theorem pyIsDigit_facts (c : Char) (h : pyIsDigit c = true) :
    pyIsWS c = false ∧ pyToLower c = c ∧ c ≠ '.' ∧ c ≠ ',' ∧ c ≠ '(' ∧ c ≠ ')' ∧
      c ≠ 'k' ∧ c ≠ 'm' ∧ c ≠ '+' ∧ c ≠ '-' ∧ c ≠ 'e' ∧ pyIsDigit c = true := by
  simp only [pyIsDigit, Bool.or_eq_true, decide_eq_true_eq] at h
  rcases h with (((((((((h | h) | h) | h) | h) | h) | h) | h) | h) | h) <;>
    subst h <;> exact (by decide)

theorem count_dropWhile_of_neg (a : Char) (p : Char → Bool) (h : p a = false) (s : PyStr) :
    (s.dropWhile p).count a = s.count a := by
  induction s with
  | nil => rfl
  | cons c cs ih =>
      rw [List.dropWhile_cons]
      by_cases hc : p c
      · have hca : a ≠ c := fun he => by rw [he] at h; rw [h] at hc; cases hc
        rw [if_pos hc, ih, List.count_cons_of_ne hca]
      · simp only [hc, Bool.false_eq_true, if_false]

theorem count_pyStrip (a : Char) (h : pyIsWS a = false) (s : PyStr) :
    (pyStrip s).count a = s.count a := by
  unfold pyStrip
  rw [List.count_reverse, count_dropWhile_of_neg a pyIsWS h, List.count_reverse,
    count_dropWhile_of_neg a pyIsWS h]

theorem count_dot_map_pyToLower (s : PyStr) :
    (s.map pyToLower).count '.' = s.count '.' := by
  rw [List.count_eq_countP, List.count_eq_countP, List.countP_map]
  refine List.countP_congr (fun c _ => ?_)
  simp [Function.comp, pyToLower_eq_dot_iff]

theorem str_to_int_append_single (s : PyStr) (c c' : Char)
    (hc : pyIsWS c = false) (hc' : pyIsWS c' = false) (hl : pyToLower c = pyToLower c') :
    str_to_int (s ++ [c]) = str_to_int (s ++ [c']) := by
  unfold str_to_int
  rw [pyStrip_append_single c hc, pyStrip_append_single c' hc',
    List.map_append, List.map_append]
  simp only [List.map_cons, List.map_nil, hl]

theorem pyToLower_dotsubst_comm (c : Char) :
    pyToLower (if c = '.' then ',' else c) =
      (if pyToLower c = '.' then ',' else pyToLower c) := by
  by_cases h : c = '.'
  · subst h
    decide
  · rw [if_neg h, if_neg (fun hc => h ((pyToLower_eq_dot_iff c).mp hc))]

theorem count_dot_map_dotsubst (s : PyStr) :
    (s.map (fun c => if c = '.' then ',' else c)).count '.' = 0 := by
  rw [List.count_eq_countP, List.countP_map, List.countP_eq_zero]
  intro c _
  by_cases h : c = '.' <;> simp [Function.comp, h]

theorem filter_map_dotsubst (a : Char) (ha : a ≠ '.' ) (ha' : a ≠ ',') (s : PyStr) :
    (s.map (fun c => if c = '.' then ',' else c)).filter (fun c => decide (c ≠ a)) =
      (s.filter (fun c => decide (c ≠ a))).map (fun c => if c = '.' then ',' else c) := by
  rw [List.filter_map]
  have hfun : ((fun c => decide (c ≠ a)) ∘ fun c => if c = '.' then ',' else c) =
      (fun c => decide (c ≠ a)) := by
    funext c
    by_cases h : c = '.'
    · subst h
      show decide ((',' : Char) ≠ a) = decide (('.' : Char) ≠ a)
      rw [decide_eq_true (Ne.symm ha'), decide_eq_true (Ne.symm ha)]
    · simp only [Function.comp_apply, if_neg h]
  rw [hfun]

theorem pyStrip_map_comm (f : Char → Char) (hf : ∀ c, pyIsWS (f c) = pyIsWS c) (s : PyStr) :
    pyStrip (s.map f) = (pyStrip s).map f := by
  have hfun : (pyIsWS ∘ f) = pyIsWS := funext hf
  unfold pyStrip
  rw [List.dropWhile_map, hfun, ← List.map_reverse, List.dropWhile_map, hfun,
    ← List.map_reverse]

theorem str_to_int_core_dotsubst (t : PyStr) (h : 1 < t.count '.') :
    str_to_int_core t =
      str_to_int_core (t.map (fun c => if c = '.' then ',' else c)) := by
  have h2 : ∀ u : PyStr, pyReplace ['('] [] (u.map (fun c => if c = '.' then ',' else c)) =
      (pyReplace ['('] [] u).map (fun c => if c = '.' then ',' else c) := by
    intro u
    rw [pyReplace_single_del, pyReplace_single_del,
      filter_map_dotsubst '(' (by decide) (by decide)]
  have h3 : ∀ u : PyStr, pyReplace [')'] [] (u.map (fun c => if c = '.' then ',' else c)) =
      (pyReplace [')'] [] u).map (fun c => if c = '.' then ',' else c) := by
    intro u
    rw [pyReplace_single_del, pyReplace_single_del,
      filter_map_dotsubst ')' (by decide) (by decide)]
  have hc1 : ∀ (x : Char), x ≠ '.' → ∀ u : PyStr,
      (pyReplace [x] [] u).count '.' = u.count '.' := by
    intro x hx u
    rw [pyReplace_single_del]
    exact List.count_filter (decide_eq_true (Ne.symm hx))
  have hc3 : (pyReplace [')'] [] (pyReplace ['('] [] t)).count '.' = t.count '.' := by
    rw [hc1 ')' (by decide), hc1 '(' (by decide)]
  have lhs : str_to_int_core t =
      str_to_int_tail (pyReplace [','] []
        ((pyReplace [')'] [] (pyReplace ['('] [] t)).map
          (fun c => if c = '.' then ',' else c))) := by
    simp only [str_to_int_core]
    rw [if_pos (by rw [hc3]; exact h), pyReplace_single_subst]
  have rhs : str_to_int_core (t.map (fun c => if c = '.' then ',' else c)) =
      str_to_int_tail (pyReplace [','] []
        ((pyReplace [')'] [] (pyReplace ['('] [] t)).map
          (fun c => if c = '.' then ',' else c))) := by
    simp only [str_to_int_core]
    rw [h2, h3, if_neg (by rw [count_dot_map_dotsubst]; omega)]
  rw [lhs, rhs]

theorem str_to_int_multidot (s : PyStr) (h : 1 < s.count '.') :
    str_to_int s = str_to_int (pyReplace ['.'] [','] s) := by
  rw [pyReplace_single_subst]
  unfold str_to_int
  have hws : ∀ c, pyIsWS (if c = '.' then ',' else c) = pyIsWS c := by
    intro c
    by_cases hc : c = '.'
    · subst hc
      decide
    · rw [if_neg hc]
  rw [pyStrip_map_comm _ hws s]
  have hmc : List.map pyToLower ((pyStrip s).map (fun c => if c = '.' then ',' else c)) =
      (List.map pyToLower (pyStrip s)).map (fun c => if c = '.' then ',' else c) := by
    rw [List.map_map, List.map_map]
    refine List.map_congr_left (fun c _ => ?_)
    exact pyToLower_dotsubst_comm c
  rw [hmc]
  refine str_to_int_core_dotsubst _ ?_
  rw [count_dot_map_pyToLower, count_pyStrip '.' (by decide)]
  exact h

theorem takeWhile_eq_self_of_pos (p : Char → Bool) (s : PyStr)
    (h : ∀ c ∈ s, p c = true) : s.takeWhile p = s := by
  induction s with
  | nil => rfl
  | cons a s' ih =>
      rw [List.takeWhile_cons, if_pos (h a (by simp)),
        ih (fun c hc => h c (List.mem_cons_of_mem a hc))]

theorem dropWhile_eq_nil_of_pos (p : Char → Bool) (s : PyStr)
    (h : ∀ c ∈ s, p c = true) : s.dropWhile p = [] := by
  induction s with
  | nil => rfl
  | cons a s' ih =>
      rw [List.dropWhile_cons, if_pos (h a (by simp))]
      exact ih (fun c hc => h c (List.mem_cons_of_mem a hc))

theorem pyFloat_digits_dot (a b : PyStr)
    (ha : ∀ c ∈ a, pyIsDigit c = true) (hb : ∀ c ∈ b, pyIsDigit c = true)
    (hbne : b ≠ []) :
    pyFloat (a ++ '.' :: b) = some ((digitsToNat (a ++ b) : Int), b.length) := by
  have hallws : ∀ c ∈ a ++ '.' :: b, pyIsWS c = false := by
    intro c hc
    rcases List.mem_append.mp hc with hc | hc
    · exact (pyIsDigit_facts c (ha c hc)).1
    · rcases List.mem_cons.mp hc with rfl | hc
      · decide
      · exact (pyIsDigit_facts c (hb c hc)).1
  have ht : (a ++ '.' :: b).takeWhile pyIsDigit = a := by
    rw [List.takeWhile_append_of_pos ha, List.takeWhile_cons,
      if_neg (by decide), List.append_nil]
  have hd : (a ++ '.' :: b).dropWhile pyIsDigit = '.' :: b := by
    rw [List.dropWhile_append_of_pos ha, List.dropWhile_cons, if_neg (by decide)]
  have hhead : ∀ x : Char, (a ++ '.' :: b).head? = some x → pyIsDigit x = true ∨ x = '.' := by
    intro x hx
    cases a with
    | nil =>
        simp only [List.nil_append, List.head?_cons, Option.some.injEq] at hx
        exact Or.inr hx.symm
    | cons d a' =>
        simp only [List.cons_append, List.head?_cons, Option.some.injEq] at hx
        exact Or.inl (hx ▸ ha d (by simp))
  unfold pyFloat
  rw [pyStrip_eq_self _ hallws]
  rw [if_neg (fun hplus => by
      rcases hhead '+' hplus with hdig | hdot
      · exact absurd (pyIsDigit_facts '+' hdig).2.2.2.2.2.2.2.2.1 (fun hne => hne rfl)
      · cases hdot),
    if_neg (fun hminus => by
      rcases hhead '-' hminus with hdig | hdot
      · exact absurd (pyIsDigit_facts '-' hdig).2.2.2.2.2.2.2.2.2.1 (fun hne => hne rfl)
      · cases hdot)]
  unfold pyFloatUnsigned
  simp [ht, hd, takeWhile_eq_self_of_pos pyIsDigit b hb,
    dropWhile_eq_nil_of_pos pyIsDigit b hb, hbne]

theorem str_to_int_digits_passthrough (t : PyStr)
    (hall : ∀ c ∈ t, pyIsWS c = false ∧ pyToLower c = c ∧ c ≠ '(' ∧ c ≠ ')' ∧ c ≠ ',')
    (hdot : ¬ 1 < t.count '.') :
    str_to_int t = str_to_int_tail t := by
  unfold str_to_int
  rw [pyStrip_eq_self t (fun c hc => (hall c hc).1),
    map_eq_self_of_fix _ _ (fun c hc => (hall c hc).2.1)]
  simp only [str_to_int_core]
  have e1 : pyReplace ['('] [] t = t := by
    rw [pyReplace_single_del]
    exact List.filter_eq_self.mpr (fun c hc => decide_eq_true (hall c hc).2.2.1)
  have e2 : pyReplace [')'] [] t = t := by
    rw [pyReplace_single_del]
    exact List.filter_eq_self.mpr (fun c hc => decide_eq_true (hall c hc).2.2.2.1)
  have e3 : pyReplace [','] [] t = t := by
    rw [pyReplace_single_del]
    exact List.filter_eq_self.mpr (fun c hc => decide_eq_true (hall c hc).2.2.2.2)
  rw [e1, e2, if_neg hdot, e3]

theorem str_to_int_tail_digits_dot (a b : PyStr)
    (ha : ∀ c ∈ a, pyIsDigit c = true) (hb : ∀ c ∈ b, pyIsDigit c = true)
    (hbne : b ≠ []) :
    str_to_int_tail (a ++ '.' :: b) =
      (floatScaleTrunc (digitsToNat (a ++ b)) b.length 1).map Int.ofNat := by
  obtain ⟨b', y, rfl⟩ : ∃ b' y, b = b' ++ [y] := by
    rcases List.eq_nil_or_concat b with h | ⟨b', y, h⟩
    · exact absurd h hbne
    · exact ⟨b', y, by rw [h, List.concat_eq_append]⟩
  have hy : pyIsDigit y = true := hb y (by simp)
  have hconc : a ++ '.' :: (b' ++ [y]) = (a ++ '.' :: b') ++ [y] := by
    rw [List.append_assoc]
    rfl
  have hlast : (a ++ '.' :: (b' ++ [y])).getLast? = some y := by
    rw [hconc, List.getLast?_concat]
  have hk : pyEndsWith 'k' (a ++ '.' :: (b' ++ [y])) = false := by
    unfold pyEndsWith
    rw [hlast]
    simp only [Option.some.injEq, decide_eq_false_iff_not]
    intro hkk
    exact (pyIsDigit_facts y hy).2.2.2.2.2.2.1 hkk
  have hm : pyEndsWith 'm' (a ++ '.' :: (b' ++ [y])) = false := by
    unfold pyEndsWith
    rw [hlast]
    simp only [Option.some.injEq, decide_eq_false_iff_not]
    intro hmm
    exact (pyIsDigit_facts y hy).2.2.2.2.2.2.2.1 hmm
  simp only [str_to_int_tail, hk, hm, Bool.false_eq_true, if_false, or_self]
  rw [if_neg (by simp)]
  rw [pyFloat_digits_dot a (b' ++ [y]) ha hb (by simp)]
  have hneg : ¬ ((digitsToNat (a ++ (b' ++ [y])) : Int) < 0) := by omega
  simp only [Option.bind_eq_bind, Option.some_bind, Int.natAbs_ofNat, if_neg hneg]

theorem str_to_int_tail_digits_dot_k (a b : PyStr)
    (ha : ∀ c ∈ a, pyIsDigit c = true) (hb : ∀ c ∈ b, pyIsDigit c = true)
    (hbne : b ≠ []) :
    str_to_int_tail ((a ++ '.' :: b) ++ ['k']) =
      (floatScaleTrunc (digitsToNat (a ++ b)) b.length 1000).map Int.ofNat := by
  have hk : pyEndsWith 'k' ((a ++ '.' :: b) ++ ['k']) = true := by
    unfold pyEndsWith
    rw [List.getLast?_concat]
    simp
  simp only [str_to_int_tail, hk, if_true, true_or, List.dropLast_concat]
  rw [if_neg (by simp)]
  rw [pyFloat_digits_dot a b ha hb hbne]
  have hneg : ¬ ((digitsToNat (a ++ b) : Int) < 0) := by omega
  simp only [Option.bind_eq_bind, Option.some_bind, Int.natAbs_ofNat, if_neg hneg]

theorem pyReplace_join_commaspace (names : List PyStr)
    (h : ∀ n ∈ names, ',' ∉ n) :
    pyReplace (pyOfString ", ") [','] (pyJoin (pyOfString ", ") names) =
      pyJoin [','] names := by
  cases names with
  | nil => rfl
  | cons x rest =>
      unfold pyReplace
      have hsep : pyOfString ", " = ',' :: [' '] := rfl
      rw [hsep, pySplit_join ',' [' '] (x :: rest) h (by simp)]

theorem parseCharacters_join (names : List PyStr)
    (h : ∀ n ∈ names, n ≠ [] ∧ ',' ∉ n) :
    parseCharacters (pyJoin (pyOfString ", ") names) = names := by
  unfold parseCharacters
  rw [pyReplace_join_commaspace names (fun n hn => (h n hn).2)]
  cases names with
  | nil => rfl
  | cons x rest =>
      rw [pySplit_join ',' [] (x :: rest) (fun n hn => (h n hn).2) (by simp)]
      exact List.erase_of_not_mem (fun hmem => (h [] hmem).1 rfl)

/-!
## The string order used by Python `sorted`
-/

theorem pyStrLtB_cons_iff (x y : Char) (xs ys : PyStr) :
    pyStrLtB (x :: xs) (y :: ys) = true ↔ x < y ∨ (x = y ∧ pyStrLtB xs ys = true) := by
  show (if x < y then true else if y < x then false else pyStrLtB xs ys) = true ↔ _
  by_cases h1 : x < y
  · simp [h1]
  · by_cases h2 : y < x
    · simp [h1, h2, h2.ne']
    · have hxy : x = y := le_antisymm (not_lt.mp h2) (not_lt.mp h1)
      simp [h1, h2, hxy]

theorem pyStrLtB_nil_cons (y : Char) (ys : PyStr) : pyStrLtB [] (y :: ys) = true := rfl

theorem pyStrLtB_cons_nil (x : Char) (xs : PyStr) : pyStrLtB (x :: xs) [] = false := rfl

theorem pyStrLtB_asymm : ∀ a b : PyStr, pyStrLtB a b = true → pyStrLtB b a = false := by
  intro a
  induction a with
  | nil =>
      intro b h
      cases b with
      | nil => cases h
      | cons y ys => rfl
  | cons x xs ih =>
      intro b h
      cases b with
      | nil => cases h
      | cons y ys =>
          cases hb : pyStrLtB (y :: ys) (x :: xs) with
          | false => rfl
          | true =>
              rcases (pyStrLtB_cons_iff x y xs ys).mp h with hlt | ⟨heq, htail⟩ <;>
                rcases (pyStrLtB_cons_iff y x ys xs).mp hb with hlt2 | ⟨heq2, htail2⟩
              · exact absurd hlt2 (lt_asymm hlt)
              · exact absurd hlt (by rw [heq2]; exact lt_irrefl x)
              · exact absurd hlt2 (by rw [heq]; exact lt_irrefl y)
              · rw [ih ys htail] at htail2
                cases htail2

theorem pyStrLtB_eq_of_not : ∀ a b : PyStr,
    pyStrLtB a b = false → pyStrLtB b a = false → a = b := by
  intro a
  induction a with
  | nil =>
      intro b h1 _
      cases b with
      | nil => rfl
      | cons y ys => cases h1
  | cons x xs ih =>
      intro b h1 h2
      cases b with
      | nil => cases h2
      | cons y ys =>
          have hxy : ¬ x < y := fun hc => by
            rw [(pyStrLtB_cons_iff x y xs ys).mpr (Or.inl hc)] at h1
            cases h1
          have hyx : ¬ y < x := fun hc => by
            rw [(pyStrLtB_cons_iff y x ys xs).mpr (Or.inl hc)] at h2
            cases h2
          have heq : x = y := le_antisymm (not_lt.mp hyx) (not_lt.mp hxy)
          have ht1 : pyStrLtB xs ys = false := by
            cases hc : pyStrLtB xs ys with
            | false => rfl
            | true =>
                rw [(pyStrLtB_cons_iff x y xs ys).mpr (Or.inr ⟨heq, hc⟩)] at h1
                cases h1
          have ht2 : pyStrLtB ys xs = false := by
            cases hc : pyStrLtB ys xs with
            | false => rfl
            | true =>
                rw [(pyStrLtB_cons_iff y x ys xs).mpr (Or.inr ⟨heq.symm, hc⟩)] at h2
                cases h2
          rw [heq, ih ys ht1 ht2]

theorem pyStrLtB_trans : ∀ a b c : PyStr,
    pyStrLtB a b = true → pyStrLtB b c = true → pyStrLtB a c = true := by
  intro a
  induction a with
  | nil =>
      intro b c h1 h2
      cases b with
      | nil => cases h1
      | cons y ys =>
          cases c with
          | nil => cases h2
          | cons z zs => rfl
  | cons x xs ih =>
      intro b c h1 h2
      cases b with
      | nil => cases h1
      | cons y ys =>
          cases c with
          | nil => cases h2
          | cons z zs =>
              refine (pyStrLtB_cons_iff x z xs zs).mpr ?_
              rcases (pyStrLtB_cons_iff x y xs ys).mp h1 with hlt | ⟨heq, htail⟩ <;>
                rcases (pyStrLtB_cons_iff y z ys zs).mp h2 with hlt2 | ⟨heq2, htail2⟩
              · exact Or.inl (lt_trans hlt hlt2)
              · exact Or.inl (heq2 ▸ hlt)
              · exact Or.inl (heq ▸ hlt2)
              · exact Or.inr ⟨heq.trans heq2, ih ys zs htail htail2⟩

instance : IsTotal PyStr pyStrLe :=
  ⟨fun a b => by
    unfold pyStrLe
    cases h : pyStrLtB b a with
    | false => exact Or.inl rfl
    | true => exact Or.inr (pyStrLtB_asymm b a h)⟩

instance : IsTrans PyStr pyStrLe :=
  ⟨fun a b c hab hbc => by
    unfold pyStrLe at hab hbc ⊢
    cases h : pyStrLtB c a with
    | false => rfl
    | true =>
        cases hcb : pyStrLtB b c with
        | true =>
            rw [pyStrLtB_trans b c a hcb h] at hab
            cases hab
        | false =>
            have : b = c := pyStrLtB_eq_of_not b c hcb hbc
            rw [← this] at h
            rw [h] at hab
            cases hab⟩

instance : IsAntisymm PyStr pyStrLe :=
  ⟨fun a b hab hba => pyStrLtB_eq_of_not a b hba hab⟩

theorem convertShipEntry_perm (chars : List PyStr) (e1 e2 : PyStr)
    (h : List.Perm (pySplit ['/'] (substAll chars e1)) (pySplit ['/'] (substAll chars e2))) :
    convertShipEntry chars e1 = convertShipEntry chars e2 := by
  unfold convertShipEntry
  congr 1
  exact List.eq_of_perm_of_sorted
    (((List.perm_insertionSort pyStrLe _).trans h).trans
      (List.perm_insertionSort pyStrLe _).symm)
    (List.sorted_insertionSort pyStrLe _)
    (List.sorted_insertionSort pyStrLe _)

/-!
## Association-list lemmas (Python dicts)
-/

theorem lookup_cons_ne {β : Type} (a q : String) (b : β) (d : List (String × β))
    (h : q ≠ a) : ((a, b) :: d).lookup q = d.lookup q := by
  rw [List.lookup_cons]
  have hf : (q == a) = false := beq_eq_false_iff_ne.mpr h
  rw [hf]

theorem lookup_append {β : Type} (k : String) (d1 d2 : List (String × β)) :
    (d1 ++ d2).lookup k = ((d1.lookup k).or (d2.lookup k)) := by
  induction d1 with
  | nil => rfl
  | cons p d1 ih =>
      obtain ⟨a, b⟩ := p
      by_cases hk : k = a
      · subst hk
        rw [List.cons_append, List.lookup_cons_self, List.lookup_cons_self]
        rfl
      · rw [List.cons_append, lookup_cons_ne a k b _ hk, lookup_cons_ne a k b _ hk, ih]

theorem lookup_singleton {β : Type} (k a : String) (b : β) :
    ([(k, b)] : List (String × β)).lookup a = if a = k then some b else none := by
  by_cases h : a = k
  · subst h
    rw [List.lookup_cons_self, if_pos rfl]
  · rw [lookup_cons_ne k a b [] h, if_neg h]
    rfl

theorem lookup_alistAppendAt (k v : String) (d : List (String × List String)) (q : String) :
    (alistAppendAt k v d).lookup q =
      (d.lookup q).map (fun l => if q = k then l ++ [v] else l) := by
  induction d with
  | nil => rfl
  | cons p d ih =>
      obtain ⟨a, b⟩ := p
      show ((if a = k then (a, b ++ [v]) else (a, b)) :: alistAppendAt k v d).lookup q = _
      by_cases hq : q = a
      · rw [hq]
        by_cases hak : a = k
        · rw [if_pos hak, List.lookup_cons_self, List.lookup_cons_self]
          simp [hak]
        · rw [if_neg hak, List.lookup_cons_self, List.lookup_cons_self]
          simp [hak]
      · by_cases hak : a = k
        · rw [if_pos hak, lookup_cons_ne a q (b ++ [v]) _ hq, lookup_cons_ne a q b d hq, ih]
        · rw [if_neg hak, lookup_cons_ne a q b _ hq, lookup_cons_ne a q b d hq, ih]

/-!
## Behaviour of one aggregation step
-/

theorem aggStep_id2meta_lookup (st : AggState) (e : MetaEntry) (sid : String) :
    (aggStep st e).id2meta.lookup sid =
      ((st.id2meta.lookup sid).or (if sid = fsidOf e then some e else none)) := by
  unfold aggStep
  by_cases hpresent : (st.id2meta.lookup (fsidOf e)).isSome = true
  · rw [if_pos hpresent]
    by_cases hsid : sid = fsidOf e
    · subst hsid
      obtain ⟨x, hx⟩ := Option.isSome_iff_exists.mp hpresent
      rw [hx]
      rfl
    · rw [if_neg hsid, Option.or_none]
  · rw [if_neg hpresent]
    show (st.id2meta ++ [(fsidOf e, e)]).lookup sid = _
    rw [lookup_append, lookup_singleton]

theorem aggStep_present (st : AggState) (e : MetaEntry)
    (hpresent : (st.id2meta.lookup (fsidOf e)).isSome = true) :
    aggStep st e = st := by
  unfold aggStep
  rw [if_pos hpresent]

theorem catListOf_aggStep_fresh (st : AggState) (e : MetaEntry)
    (hALL : (st.category2ids.lookup "ALL").isSome = true)
    (hfresh : ¬ (st.id2meta.lookup (fsidOf e)).isSome = true) :
    (∀ k, catListOf (aggStep st e) k =
      catListOf st k ++ (if k = e.category then [fsidOf e] else [])
        ++ (if k = "ALL" then [fsidOf e] else [])) ∧
      ((aggStep st e).category2ids.lookup "ALL").isSome = true := by
  have hstep : (aggStep st e).category2ids =
      alistAppendAt "ALL" (fsidOf e)
        (if (st.category2ids.lookup e.category).isSome then
          alistAppendAt e.category (fsidOf e) st.category2ids
        else st.category2ids ++ [(e.category, [fsidOf e])]) := by
    unfold aggStep
    rw [if_neg hfresh]
  have hcats0 : ∀ k,
      ((if (st.category2ids.lookup e.category).isSome then
          alistAppendAt e.category (fsidOf e) st.category2ids
        else st.category2ids ++ [(e.category, [fsidOf e])]).lookup k).getD [] =
        catListOf st k ++ (if k = e.category then [fsidOf e] else []) := by
    intro k
    by_cases hcatp : (st.category2ids.lookup e.category).isSome = true
    · rw [if_pos hcatp, lookup_alistAppendAt]
      by_cases hk : k = e.category
      · subst hk
        obtain ⟨l, hl⟩ := Option.isSome_iff_exists.mp hcatp
        rw [hl]
        simp [catListOf, hl]
      · rw [if_neg hk]
        cases hlk : st.category2ids.lookup k with
        | none => simp [catListOf, hlk, hk]
        | some l => simp [catListOf, hlk, hk]
    · rw [if_neg hcatp, lookup_append, lookup_singleton]
      by_cases hk : k = e.category
      · have hnone : st.category2ids.lookup e.category = none :=
          Option.not_isSome_iff_eq_none.mp hcatp
        rw [hk, hnone, if_pos rfl]
        simp [catListOf, hnone]
      · rw [if_neg hk, Option.or_none]
        simp [catListOf, hk]
  have hcats0some : ∀ k, (st.category2ids.lookup k).isSome = true →
      ((if (st.category2ids.lookup e.category).isSome then
          alistAppendAt e.category (fsidOf e) st.category2ids
        else st.category2ids ++ [(e.category, [fsidOf e])]).lookup k).isSome = true := by
    intro k hks
    by_cases hcatp : (st.category2ids.lookup e.category).isSome = true
    · rw [if_pos hcatp, lookup_alistAppendAt]
      obtain ⟨l, hl⟩ := Option.isSome_iff_exists.mp hks
      rw [hl]
      rfl
    · rw [if_neg hcatp, lookup_append]
      obtain ⟨l, hl⟩ := Option.isSome_iff_exists.mp hks
      rw [hl]
      rfl
  constructor
  · intro k
    show ((aggStep st e).category2ids.lookup k).getD [] = _
    rw [hstep, lookup_alistAppendAt]
    by_cases hk : k = "ALL"
    · subst hk
      have hsome := hcats0some "ALL" hALL
      obtain ⟨l, hl⟩ := Option.isSome_iff_exists.mp hsome
      have := hcats0 "ALL"
      rw [hl] at this ⊢
      simp only [Option.getD_some] at this
      simp [this]
    · cases hlk : (if (st.category2ids.lookup e.category).isSome then
          alistAppendAt e.category (fsidOf e) st.category2ids
        else st.category2ids ++ [(e.category, [fsidOf e])]).lookup k with
      | none =>
          have := hcats0 k
          rw [hlk] at this
          simp only [Option.getD_none] at this
          simp [hk, ← this]
      | some l =>
          have := hcats0 k
          rw [hlk] at this
          simp only [Option.getD_some] at this
          simp [hk, this]
  · rw [hstep, lookup_alistAppendAt]
    obtain ⟨l, hl⟩ := Option.isSome_iff_exists.mp (hcats0some "ALL" hALL)
    rw [hl]
    rfl

/-- The aggregation invariant behind the category-index counting property:
the `"ALL"` bucket exists, un-inserted story ids occur in no category list,
and every inserted story whose resolved category is not the literal `"ALL"`
occurs exactly once in the `"ALL"` bucket and once in its category's list. -/
def AggInv (st : AggState) : Prop :=
  (st.category2ids.lookup "ALL").isSome = true ∧
  (∀ sid, st.id2meta.lookup sid = none → ∀ k, (catListOf st k).count sid = 0) ∧
  (∀ sid e, st.id2meta.lookup sid = some e → e.category ≠ "ALL" →
    (catListOf st "ALL").count sid = 1 ∧ (catListOf st e.category).count sid = 1)

theorem aggInv_init : AggInv initAggState := by
  refine ⟨rfl, ?_, ?_⟩
  · intro sid _ k
    show ((([(("ALL" : String), ([] : List String))]).lookup k).getD []).count sid = 0
    rw [lookup_singleton]
    by_cases hk : k = "ALL"
    · rw [if_pos hk]
      rfl
    · rw [if_neg hk]
      rfl
  · intro sid e hlook
    cases hlook

theorem aggStep_inv (st : AggState) (e : MetaEntry) (h : AggInv st) :
    AggInv (aggStep st e) := by
  obtain ⟨hALL, hnone, hsome⟩ := h
  by_cases hpresent : (st.id2meta.lookup (fsidOf e)).isSome = true
  · rw [aggStep_present st e hpresent]
    exact ⟨hALL, hnone, hsome⟩
  · obtain ⟨hcat, hALL'⟩ := catListOf_aggStep_fresh st e hALL hpresent
    have hid : ∀ sid, (aggStep st e).id2meta.lookup sid =
        ((st.id2meta.lookup sid).or (if sid = fsidOf e then some e else none)) :=
      aggStep_id2meta_lookup st e
    have holdn : st.id2meta.lookup (fsidOf e) = none :=
      Option.not_isSome_iff_eq_none.mp hpresent
    refine ⟨hALL', ?_, ?_⟩
    · intro sid hs k
      rw [hid sid] at hs
      have hold : st.id2meta.lookup sid = none := by
        cases hv : st.id2meta.lookup sid with
        | none => rfl
        | some x => rw [hv] at hs; cases hs
      have hsid : sid ≠ fsidOf e := by
        intro hh
        rw [hold, hh, if_pos rfl] at hs
        cases hs
      rw [hcat k, List.count_append, List.count_append,
        hnone sid hold k]
      have h1 : (if k = e.category then [fsidOf e] else []).count sid = 0 := by
        split
        · simp [List.count_cons, beq_iff_eq, hsid]
        · rfl
      have h2 : (if k = "ALL" then [fsidOf e] else []).count sid = 0 := by
        split
        · simp [List.count_cons, beq_iff_eq, hsid]
        · rfl
      omega
    · intro sid e' hlook hcat'
      by_cases hsid : sid = fsidOf e
      · have he' : e' = e := by
          rw [hid sid, hsid, holdn, if_pos rfl] at hlook
          injection hlook with hlook
          exact hlook.symm
        have hcatE : e.category ≠ "ALL" := he' ▸ hcat'
        rw [he']
        constructor
        · rw [hcat "ALL", List.count_append, List.count_append, hsid,
            hnone (fsidOf e) holdn "ALL", if_neg (Ne.symm hcatE), if_pos rfl]
          simp [List.count_cons]
        · rw [hcat e.category, List.count_append, List.count_append, hsid,
            hnone (fsidOf e) holdn e.category, if_pos rfl, if_neg hcatE]
          simp [List.count_cons]
      · have hold : st.id2meta.lookup sid = some e' := by
          rw [hid sid, if_neg hsid, Option.or_none] at hlook
          exact hlook
        obtain ⟨hA, hC⟩ := hsome sid e' hold hcat'
        have h1 : ∀ k0, (if k0 = e.category then [fsidOf e] else []).count sid = 0 := by
          intro k0
          split
          · simp [List.count_cons, beq_iff_eq, hsid]
          · rfl
        have h2 : ∀ k0, (if k0 = "ALL" then [fsidOf e] else []).count sid = 0 := by
          intro k0
          split
          · simp [List.count_cons, beq_iff_eq, hsid]
          · rfl
        constructor
        · rw [hcat "ALL", List.count_append, List.count_append, hA, h1, h2]
        · rw [hcat e'.category, List.count_append, List.count_append, hC, h1, h2]

theorem aggInv_foldl (es : List MetaEntry) :
    ∀ st, AggInv st → AggInv (es.foldl aggStep st) := by
  induction es with
  | nil => intro st h; exact h
  | cons e tl ih => intro st h; exact ih _ (aggStep_inv st e h)

theorem aggregateProjects_eq_foldl_concat (ps : List (List MetaEntry)) :
    aggregateProjects ps = (concatAll ps).foldl aggStep initAggState := by
  suffices h : ∀ st, ps.foldl (fun st proj => proj.foldl aggStep st) st =
      (concatAll ps).foldl aggStep st from h _
  induction ps with
  | nil => intro st; rfl
  | cons p ps ih =>
      intro st
      show ps.foldl _ (p.foldl aggStep st) = (p ++ concatAll ps).foldl aggStep st
      rw [ih, List.foldl_append]

theorem aggInv_aggregateProjects (ps : List (List MetaEntry)) :
    AggInv (aggregateProjects ps) := by
  rw [aggregateProjects_eq_foldl_concat]
  exact aggInv_foldl _ _ aggInv_init

theorem foldl_aggStep_lookup (es : List MetaEntry) :
    ∀ (st : AggState) (sid : String),
      (es.foldl aggStep st).id2meta.lookup sid =
        ((st.id2meta.lookup sid).or (es.find? (fun e => fsidOf e == sid))) := by
  induction es with
  | nil =>
      intro st sid
      rw [List.foldl_nil, List.find?_nil, Option.or_none]
  | cons e tl ih =>
      intro st sid
      rw [List.foldl_cons, ih, aggStep_id2meta_lookup, Option.or_assoc]
      congr 1
      by_cases h : fsidOf e = sid
      · have hb : (fsidOf e == sid) = true := beq_iff_eq.mpr h
        rw [List.find?_cons, hb, if_pos h.symm]
        rfl
      · have hb : (fsidOf e == sid) = false := beq_eq_false_iff_ne.mpr h
        rw [List.find?_cons, hb, if_neg (fun hc => h hc.symm)]
        rfl

/-!
## Alias-table and target-list lemmas
-/

theorem lookup_overwrite (t : List (String × String)) (f v : String) :
    (t.map (fun p => if p.1 = f then (p.1, v) else p)).lookup f =
      (t.lookup f).map (fun _ => v) := by
  induction t with
  | nil => rfl
  | cons p t ih =>
      obtain ⟨a, b⟩ := p
      show ((if a = f then (a, v) else (a, b)) :: _).lookup f = _
      by_cases hf : f = a
      · rw [hf, if_pos rfl, List.lookup_cons_self, List.lookup_cons_self]
        rfl
      · rw [if_neg (fun hc => hf hc.symm), lookup_cons_ne a f b _ hf,
          lookup_cons_ne a f b t hf, ih]

theorem addAlias_lookup_self (t : List (String × String)) (f v : String) :
    (addAlias t f v).lookup f = some v := by
  unfold addAlias
  by_cases hp : (t.lookup f).isSome = true
  · rw [if_pos hp, lookup_overwrite]
    obtain ⟨x, hx⟩ := Option.isSome_iff_exists.mp hp
    rw [hx]
    rfl
  · rw [if_neg hp, lookup_append, lookup_singleton, if_pos rfl,
      Option.not_isSome_iff_eq_none.mp hp]
    rfl

theorem listTargetsStep_nodup (resolve : PyStr → TargetId) (acc : List TargetId)
    (line : PyStr) (h : acc.Nodup) : (listTargetsStep resolve acc line).Nodup := by
  simp only [listTargetsStep]
  split
  · exact h
  · split
    · exact h
    · split
      · exact h
      · next ht =>
          simp [List.nodup_append, h, ht]

theorem listTargetsStep_mem_mono (resolve : PyStr → TargetId) (acc : List TargetId)
    (line : PyStr) (x : TargetId) (h : x ∈ acc) :
    x ∈ listTargetsStep resolve acc line := by
  simp only [listTargetsStep]
  split
  · exact h
  · split
    · exact h
    · split
      · exact h
      · exact List.mem_append_left _ h

theorem listTargetsStep_adds (resolve : PyStr → TargetId) (acc : List TargetId)
    (line : PyStr) (h1 : ¬ List.isPrefixOf ['#'] (pyStrip line) = true)
    (h2 : pyStrip line ≠ []) :
    resolve (pyStrip line) ∈ listTargetsStep resolve acc line := by
  simp only [listTargetsStep]
  rw [if_neg h1, if_neg h2]
  split
  · next hm => exact hm
  · exact List.mem_append_right _ (by simp)

theorem listTargets_foldl_nodup (resolve : PyStr → TargetId) (lines : List PyStr) :
    ∀ acc : List TargetId, acc.Nodup →
      (lines.foldl (listTargetsStep resolve) acc).Nodup := by
  induction lines with
  | nil => intro acc h; exact h
  | cons line tl ih =>
      intro acc h
      exact ih _ (listTargetsStep_nodup resolve acc line h)

theorem listTargets_foldl_mem (resolve : PyStr → TargetId) (lines : List PyStr)
    (x : TargetId) : ∀ acc : List TargetId, x ∈ acc →
      x ∈ lines.foldl (listTargetsStep resolve) acc := by
  induction lines with
  | nil => intro acc h; exact h
  | cons line tl ih =>
      intro acc h
      exact ih _ (listTargetsStep_mem_mono resolve acc line x h)

/-!
## Remaining helper lemmas for the claims
-/

theorem defaultConvert_characters (raw : RawMeta) (out : DefaultMeta)
    (h : defaultConvert raw = some out) :
    out.characters = parseCharacters (raw.characters.getD []) := by
  unfold defaultConvert at h
  simp only [Option.bind_eq_bind, Option.bind_eq_some, Option.some.injEq] at h
  obtain ⟨s1, hnw, n1, hs1, s2, hnc, n2, hs2, hout⟩ := h
  rw [← hout]

theorem digits_dot_pass (a b : PyStr)
    (ha : ∀ c ∈ a, pyIsDigit c = true) (hb : ∀ c ∈ b, pyIsDigit c = true) :
    ∀ c ∈ a ++ '.' :: b,
      pyIsWS c = false ∧ pyToLower c = c ∧ c ≠ '(' ∧ c ≠ ')' ∧ c ≠ ',' := by
  intro c hc
  rcases List.mem_append.mp hc with hc | hc
  · have hf := pyIsDigit_facts c (ha c hc)
    exact ⟨hf.1, hf.2.1, hf.2.2.2.2.1, hf.2.2.2.2.2.1, hf.2.2.2.1⟩
  · rcases List.mem_cons.mp hc with rfl | hc
    · exact ⟨by decide, by decide, by decide, by decide, by decide⟩
    · have hf := pyIsDigit_facts c (hb c hc)
      exact ⟨hf.1, hf.2.1, hf.2.2.2.2.1, hf.2.2.2.2.2.1, hf.2.2.2.1⟩

theorem digits_dot_k_pass (a b : PyStr)
    (ha : ∀ c ∈ a, pyIsDigit c = true) (hb : ∀ c ∈ b, pyIsDigit c = true) :
    ∀ c ∈ (a ++ '.' :: b) ++ ['k'],
      pyIsWS c = false ∧ pyToLower c = c ∧ c ≠ '(' ∧ c ≠ ')' ∧ c ≠ ',' := by
  intro c hc
  rcases List.mem_append.mp hc with hc | hc
  · exact digits_dot_pass a b ha hb c hc
  · rcases List.mem_cons.mp hc with rfl | hc
    · exact ⟨by decide, by decide, by decide, by decide, by decide⟩
    · cases hc

theorem digits_dot_count (a b : PyStr)
    (ha : ∀ c ∈ a, pyIsDigit c = true) (hb : ∀ c ∈ b, pyIsDigit c = true) :
    (a ++ '.' :: b).count '.' = 1 := by
  rw [List.count_append, List.count_cons_self]
  have h1 : a.count '.' = 0 :=
    List.count_eq_zero.mpr (fun hm => (pyIsDigit_facts '.' (ha '.' hm)).2.2.1 rfl)
  have h2 : b.count '.' = 0 :=
    List.count_eq_zero.mpr (fun hm => (pyIsDigit_facts '.' (hb '.' hm)).2.2.1 rfl)
  omega

theorem digits_dot_k_count (a b : PyStr)
    (ha : ∀ c ∈ a, pyIsDigit c = true) (hb : ∀ c ∈ b, pyIsDigit c = true) :
    ((a ++ '.' :: b) ++ ['k']).count '.' = 1 := by
  rw [List.count_append, digits_dot_count a b ha hb]
  rfl

/-!
## The claims
-/

/-- Claim C1: for a converted metadata record, character names containing
`/` are protected by the sentinel substitution before the ship entry is
split on `/`, and restored afterwards: with characters `"Max/Jax, Amy"` and
ships text `"Max/Jax/Amy"`, both the default converter and the ffnet
converter produce exactly one ship, `["Amy", "Max/Jax"]`, rather than three
members. -/
theorem ships_sentinel_roundtrip :
    (defaultConvert ⟨some ['0'], some ['0'], some (pyOfString "Max/Jax, Amy"),
        some (pyOfString "Max/Jax/Amy"), none, none, none, none, none⟩).map
        DefaultMeta.ships
      = some [[pyOfString "Amy", pyOfString "Max/Jax"]] ∧
    (ffnetConvert ⟨none, none, some (pyOfString "Max/Jax, Amy"),
        some (pyOfString "Max/Jax/Amy"), none, none, none, none, none⟩).map
        FFNetMeta.ships
      = some [[pyOfString "Amy", pyOfString "Max/Jax"]] := by
  decide

/-- Claim C2: the count-string parser maps `"1,234"` to 1234, `"2.5k"` to
2500, `"1.234.567"` to 1234567 and `""` to 0; it strips parentheses, applies
the case-insensitive trailing `k`/`m` multiplier, discards `,` separators,
and treats every `.` as a discarded separator whenever more than one `.` is
present. -/
theorem str_to_int_count_parsing :
    str_to_int (pyOfString "1,234") = some 1234 ∧
    str_to_int (pyOfString "2.5k") = some 2500 ∧
    str_to_int (pyOfString "1.234.567") = some 1234567 ∧
    str_to_int (pyOfString "") = some 0 ∧
    str_to_int (pyOfString "(123)") = some 123 ∧
    str_to_int (pyOfString "()") = some 0 ∧
    str_to_int (pyOfString "2.5K") = some 2500 ∧
    str_to_int (pyOfString "3m") = some 3000000 ∧
    (∀ s : PyStr, str_to_int (s ++ ['K']) = str_to_int (s ++ ['k'])) ∧
    (∀ s : PyStr, str_to_int (s ++ ['M']) = str_to_int (s ++ ['m'])) ∧
    (∀ s : PyStr, 1 < s.count '.' →
      str_to_int s = str_to_int (pyReplace ['.'] [','] s)) := by
  refine ⟨by decide, by decide, by decide, by decide, by decide, by decide,
    by decide, by decide, ?_, ?_, ?_⟩
  · intro s
    exact str_to_int_append_single s 'K' 'k' (by decide) (by decide) (by decide)
  · intro s
    exact str_to_int_append_single s 'M' 'm' (by decide) (by decide) (by decide)
  · intro s h
    exact str_to_int_multidot s h

/-- Witness for C2: the multi-dot separator rule applied at the concrete
input `"1.2.3"`. -/
theorem str_to_int_count_parsing_witness :
    str_to_int (pyOfString "1.2.3") =
      str_to_int (pyReplace ['.'] [','] (pyOfString "1.2.3")) :=
  str_to_int_count_parsing.2.2.2.2.2.2.2.2.2.2 (pyOfString "1.2.3") (by decide)

/-- Counterexample for C10: the parser does not truncate the exact scaled
decimal value toward zero — binary64 rounding intervenes.  `"2.002k"` parses
to 2001 although the exact scaled value is 2002 exactly (so its truncation
is 2002): `float("2.002")` rounds to the double just below 2.002 and the
product with 1000 rounds to the double just below 2002.  `"0.99999999999999999"`
parses to 1 although exact truncation gives 0: `float` rounds the literal up
to 1.0. -/
theorem decimal_exact_truncation_fails :
    (str_to_int (pyOfString "2.002k") = some 2001 ∧
      (digitsToNat (pyOfString "2002") * 1000 / 10 ^ 3 : Nat) = 2002) ∧
    (str_to_int (pyOfString "0.99999999999999999") = some 1 ∧
      (digitsToNat (pyOfString "099999999999999999") / 10 ^ 17 : Nat) = 0) := by
  decide

/-- Claim C10 (amended): on a string with exactly one `.` and digits on both
sides, the parser treats the `.` as a decimal point: the result is the
decimal literal correctly rounded to IEEE-754 binary64 by `float`, scaled by
the multiplier with binary64 rounding, and truncated toward zero by `int` —
in general and under a `k` multiplier — and concretely `"1.5"` parses to 1
and `"2.56k"` to 2560.  The original claim's truncation of the exact scaled
value is false of the program: binary64 rounding can carry the value across
an integer boundary, as in `"2.002k"`, which parses to 2001, not 2002. -/
theorem decimal_point_float_truncation :
    (∀ a b : PyStr, (∀ c ∈ a, pyIsDigit c = true) → (∀ c ∈ b, pyIsDigit c = true) →
      a ≠ [] → b ≠ [] →
      str_to_int (a ++ '.' :: b) =
        (floatScaleTrunc (digitsToNat (a ++ b)) b.length 1).map Int.ofNat) ∧
    (∀ a b : PyStr, (∀ c ∈ a, pyIsDigit c = true) → (∀ c ∈ b, pyIsDigit c = true) →
      a ≠ [] → b ≠ [] →
      str_to_int ((a ++ '.' :: b) ++ ['k']) =
        (floatScaleTrunc (digitsToNat (a ++ b)) b.length 1000).map Int.ofNat) ∧
    str_to_int (pyOfString "1.5") = some 1 ∧
    str_to_int (pyOfString "2.56k") = some 2560 := by
  refine ⟨?_, ?_, by decide, by decide⟩
  · intro a b ha hb _ hbne
    rw [str_to_int_digits_passthrough _ (digits_dot_pass a b ha hb)
      (by rw [digits_dot_count a b ha hb]; omega)]
    exact str_to_int_tail_digits_dot a b ha hb hbne
  · intro a b ha hb _ hbne
    rw [str_to_int_digits_passthrough _ (digits_dot_k_pass a b ha hb)
      (by rw [digits_dot_k_count a b ha hb]; omega)]
    exact str_to_int_tail_digits_dot_k a b ha hb hbne

/-- Witness for C10: the amended decimal-point rule applied at `"1.5"` and
`"2.56k"`. -/
theorem decimal_point_float_truncation_witness :
    str_to_int (['1'] ++ '.' :: ['5']) =
      (floatScaleTrunc (digitsToNat (['1'] ++ ['5'])) (['5'] : PyStr).length 1).map
        Int.ofNat ∧
    str_to_int ((['2'] ++ '.' :: ['5', '6']) ++ ['k']) =
      (floatScaleTrunc (digitsToNat (['2'] ++ ['5', '6']))
        (['5', '6'] : PyStr).length 1000).map Int.ofNat :=
  ⟨decimal_point_float_truncation.1 ['1'] ['5'] (by decide) (by decide) (by decide)
     (by decide),
   decimal_point_float_truncation.2.1 ['2'] ['5', '6'] (by decide) (by decide)
     (by decide) (by decide)⟩

/-- Claim C3: aggregation visits the root project first and then its
subprojects in pre-order; `id2meta` insertion is first-write-wins, so the
catalog entry of a story id is the first traversal-order occurrence; on the
concrete tree whose root declares story `"ffnet-42"` as `entA` and whose
subproject declares it with different metadata `entB`, the catalog contains
exactly the root version. -/
theorem aggregation_first_write_wins :
    (∀ (m : List MetaEntry) (sp : ProjTree) (rest : List ProjTree),
      projectsOf (.node m (sp :: rest)) =
        .node m (sp :: rest) :: (projectsOf sp ++ walkForest rest)) ∧
    (∀ (ps : List (List MetaEntry)) (sid : String),
      (aggregateProjects ps).id2meta.lookup sid =
        (concatAll ps).find? (fun e => fsidOf e == sid)) ∧
    (aggregateTree (.node [entA] [.node [entB] []])).id2meta.lookup "ffnet-42" =
      some entA ∧
    entA ≠ entB := by
  refine ⟨?_, ?_, by decide, by decide⟩
  · intro m sp rest
    rfl
  · intro ps sid
    rw [aggregateProjects_eq_foldl_concat, foldl_aggStep_lookup]
    rfl

/-- Counterexample for C4: a story whose own (resolved) category is the
literal string `"ALL"` is indexed, yet its id appears TWICE in
`category2ids["ALL"]` — the loop appends it once for its category and once
more unconditionally for the `"ALL"` bucket. -/
theorem category_all_double_count :
    ((aggregateProjects [[entALL]]).id2meta.lookup (fsidOf entALL)).isSome = true ∧
    (catListOf (aggregateProjects [[entALL]]) "ALL").count (fsidOf entALL) = 2 := by
  decide

/-- Claim C4 (amended): after aggregation, every story id present in
`id2meta` whose resolved category is NOT the literal `"ALL"` appears exactly
once in `category2ids["ALL"]` and exactly once in the list for its category.
The original claim is false without the side condition: a story whose
category is itself `"ALL"` is appended to that bucket twice. -/
theorem category_index_exactly_once (ps : List (List MetaEntry)) (sid : String)
    (e : MetaEntry) (h : (aggregateProjects ps).id2meta.lookup sid = some e)
    (hcat : e.category ≠ "ALL") :
    (catListOf (aggregateProjects ps) "ALL").count sid = 1 ∧
    (catListOf (aggregateProjects ps) e.category).count sid = 1 :=
  (aggInv_aggregateProjects ps).2.2 sid e h hcat

/-- Witness for C4: the amended exactly-once property at the concrete
one-project input `[[entA]]`. -/
theorem category_index_exactly_once_witness :
    (catListOf (aggregateProjects [[entA]]) "ALL").count "ffnet-42" = 1 ∧
    (catListOf (aggregateProjects [[entA]]) "Drama").count "ffnet-42" = 1 := by
  have h := category_index_exactly_once [[entA]] "ffnet-42" entA (by decide) (by decide)
  exact ⟨h.1, h.2⟩

/-- Claim C5: alias resolution is single-hop with identity fallback:
`addAlias` overwrites any existing mapping for its source key; `resolve`
returns the mapped name when an entry exists and the category unchanged
otherwise; and after `addAlias("X","Y")` then `addAlias("Y","Z")`,
`resolve("X")` is `"Y"`, not `"Z"`. -/
theorem alias_single_hop :
    (∀ (t : List (String × String)) (f v : String),
      (addAlias t f v).lookup f = some v) ∧
    (∀ (t : List (String × String)) (c v : String),
      t.lookup c = some v → resolveAlias t c = v) ∧
    (∀ (t : List (String × String)) (c : String),
      t.lookup c = none → resolveAlias t c = c) ∧
    resolveAlias (addAlias (addAlias [] "X" "Y") "Y" "Z") "X" = "Y" := by
  refine ⟨addAlias_lookup_self, ?_, ?_, by decide⟩
  · intro t c v h
    unfold resolveAlias
    rw [h]
    rfl
  · intro t c h
    unfold resolveAlias
    rw [h]
    rfl

/-- Witness for C5: resolution of a present and of an absent key at concrete
tables. -/
theorem alias_single_hop_witness :
    resolveAlias [("X", "Y")] "X" = "Y" ∧ resolveAlias [] "Q" = "Q" :=
  ⟨alias_single_hop.2.1 [("X", "Y")] "X" "Y" (by decide),
   alias_single_hop.2.2.1 [] "Q" (by decide)⟩

/-- Counterexample for C6: `DefaultConverter.convert` subscripts
`data["numWords"]` directly, so a record with every optional field absent
raises (`none`); and `FFNetConverter.convert` raises on an unparseable count
(`favs = "abc"` makes `float` fail) instead of defaulting to 0. -/
theorem converter_absent_unparseable_raises :
    defaultConvert ⟨none, none, none, none, none, none, none, none, none⟩ = none ∧
    ffnetConvert ⟨none, none, none, none, some (pyOfString "abc"), none, none,
      none, none⟩ = none := by
  decide

/-- Claim C6 (amended): the ffnet-style converter (whose count fields all use
`data.get(key, "0")`) never raises when the optional fields `numWords`,
`numChapters`, `favs`, `follows`, `reviews`, `characters` and `ships` are all
absent: each count defaults to 0 and the list fields to empty. The original
claim is false for the default converter (direct subscript raises on a
missing key) and for unparseable counts (which raise, not default). -/
theorem ffnet_absent_optional_defaults (raw : RawMeta)
    (h1 : raw.numWords = none) (h2 : raw.numChapters = none)
    (h3 : raw.characters = none) (h4 : raw.ships = none)
    (h5 : raw.favs = none) (h6 : raw.follows = none) (h7 : raw.reviews = none) :
    ffnetConvert raw =
      some ⟨raw.authorId.getD (pyOfString "???"), 0, 0, 0, 0, 0,
        raw.storyId.getD (pyOfString "???"), [], []⟩ := by
  obtain ⟨nw, nc, ch, sh, fv, fo, rv, aid, sid⟩ := raw
  simp only at h1 h2 h3 h4 h5 h6 h7
  subst h1 h2 h3 h4 h5 h6 h7
  have h0 : str_to_int ['0'] = some 0 := by decide
  have hpc : parseCharacters ([] : PyStr) = [] := by decide
  have hps : parseShips [] ([] : PyStr) = [] := by decide
  simp only [ffnetConvert, Option.getD_none, h0, hpc, hps, Option.bind_eq_bind,
    Option.some_bind]

/-- Witness for C6: the amended default behaviour at the all-absent
record. -/
theorem ffnet_absent_optional_defaults_witness :
    ffnetConvert ⟨none, none, none, none, none, none, none, some (pyOfString "a9"),
        some (pyOfString "77")⟩ =
      some ⟨(some (pyOfString "a9")).getD (pyOfString "???"), 0, 0, 0, 0, 0,
        (some (pyOfString "77")).getD (pyOfString "???"), [], []⟩ :=
  ffnet_absent_optional_defaults
    ⟨none, none, none, none, none, none, none, some (pyOfString "a9"),
      some (pyOfString "77")⟩ rfl rfl rfl rfl rfl rfl rfl

/-- Counterexample for C7: the converted characters field is NOT always a
set of distinct non-empty names: the input `",,"` yields two empty names
(only the first empty string is removed), and `"Amy, Amy"` keeps the
duplicate. -/
theorem characters_empty_duplicate :
    (defaultConvert ⟨some ['0'], some ['0'], some (pyOfString ",,"), none, none,
        none, none, none, none⟩).map DefaultMeta.characters = some [[], []] ∧
    (defaultConvert ⟨some ['0'], some ['0'], some (pyOfString "Amy, Amy"), none,
        none, none, none, none, none⟩).map DefaultMeta.characters =
      some [pyOfString "Amy", pyOfString "Amy"] := by
  decide

/-- Claim C7 (amended): when the raw characters field is a `", "`-joined list
of well-formed names (each non-empty and comma-free), the converted
characters field is exactly that list — in particular it has no empty name,
and it is duplicate-free whenever the input names are.  The original
unconditional claim is false: a malformed input such as `",,"` leaves empty
names and `"Amy, Amy"` leaves duplicates. -/
theorem characters_wellformed_roundtrip (raw : RawMeta) (out : DefaultMeta)
    (names : List PyStr) (h : defaultConvert raw = some out)
    (hn : raw.characters = some (pyJoin (pyOfString ", ") names))
    (hw : ∀ n ∈ names, n ≠ [] ∧ ',' ∉ n) :
    out.characters = names ∧ (∀ n ∈ out.characters, n ≠ []) ∧
    (names.Nodup → out.characters.Nodup) := by
  have he : out.characters = names := by
    rw [defaultConvert_characters raw out h, hn]
    exact parseCharacters_join names hw
  refine ⟨he, ?_, ?_⟩
  · intro n hm
    rw [he] at hm
    exact (hw n hm).1
  · intro hnd
    rw [he]
    exact hnd

/-- Witness for C7: the round-trip at the concrete record whose characters
field is `"Max/Jax, Amy"`. -/
theorem characters_wellformed_roundtrip_witness :
    (⟨0, 0, [pyOfString "Max/Jax", pyOfString "Amy"], []⟩ : DefaultMeta).characters =
        [pyOfString "Max/Jax", pyOfString "Amy"] ∧
    (∀ n ∈ (⟨0, 0, [pyOfString "Max/Jax", pyOfString "Amy"], []⟩ :
        DefaultMeta).characters, n ≠ []) ∧
    ([pyOfString "Max/Jax", pyOfString "Amy"].Nodup →
      (⟨0, 0, [pyOfString "Max/Jax", pyOfString "Amy"], []⟩ :
        DefaultMeta).characters.Nodup) :=
  characters_wellformed_roundtrip
    ⟨some ['0'], some ['0'], some (pyOfString "Max/Jax, Amy"), none, none, none,
      none, none, none⟩
    ⟨0, 0, [pyOfString "Max/Jax", pyOfString "Amy"], []⟩
    [pyOfString "Max/Jax", pyOfString "Amy"]
    (by decide) (by decide) (by decide)

/-- Counterexample for C8: the sort happens on the sentinel-substituted
member strings, not on the restored names themselves: with known character
`"A/B"` the entry `"A/B/AZ"` converts to `["AZ", "A/B"]`, yet sorting those
member names directly gives `["A/B", "AZ"]`. -/
theorem ship_sort_on_sentinel :
    convertShipEntry [pyOfString "A/B"] (pyOfString "A/B/AZ") =
      [pyOfString "AZ", pyOfString "A/B"] ∧
    List.insertionSort pyStrLe [pyOfString "AZ", pyOfString "A/B"] =
      [pyOfString "A/B", pyOfString "AZ"] := by
  decide

/-- Claim C8 (amended): ship conversion is invariant under the order of the
members of an entry — two entries whose (sentinel-substituted) member lists
are permutations of each other convert to the identical ship list — and
concretely `"B/A"` and `"A/B"` both normalize to `["A", "B"]`.  The original
claim is false in that the lexicographic sort is applied to the
sentinel-substituted member strings, not to the restored names themselves. -/
theorem ship_members_order_invariant :
    (∀ (chars : List PyStr) (e1 e2 : PyStr),
      List.Perm (pySplit ['/'] (substAll chars e1)) (pySplit ['/'] (substAll chars e2)) →
      convertShipEntry chars e1 = convertShipEntry chars e2) ∧
    convertShipEntry [] (pyOfString "B/A") = [pyOfString "A", pyOfString "B"] ∧
    convertShipEntry [] (pyOfString "A/B") = [pyOfString "A", pyOfString "B"] :=
  ⟨convertShipEntry_perm, by decide, by decide⟩

/-- Witness for C8: the permutation-invariance applied to the concrete pair
`"B/A"` and `"A/B"`. -/
theorem ship_members_order_invariant_witness :
    convertShipEntry [] (pyOfString "B/A") = convertShipEntry [] (pyOfString "A/B") :=
  ship_members_order_invariant.1 [] (pyOfString "B/A") (pyOfString "A/B") (by decide)

/-- Counterexample for C9: `add_target` appends the reference to the target
file unconditionally — adding the same reference twice stores it twice and
signals nothing — so the addition is not a no-op on the stored list. -/
theorem add_target_duplicate_storage :
    addTargetLine (addTargetLine [] (pyOfString "https://x.example/s/1"))
        (pyOfString "https://x.example/s/1") =
      [pyOfString "https://x.example/s/1", pyOfString "https://x.example/s/1"] := by
  decide

/-- Claim C9 (amended): although `add_target` appends unconditionally (so the
stored file may hold duplicate lines and no `AlreadyPresent` is signalled),
the read side deduplicates by target identity: after adding the same
reference twice, `list_targets` returns a duplicate-free list containing
exactly one entry for that identity. -/
theorem add_target_dedup_on_read (resolve : PyStr → TargetId)
    (lines : List PyStr) (url : PyStr)
    (h1 : ¬ List.isPrefixOf ['#'] (pyStrip url) = true)
    (h2 : pyStrip url ≠ []) :
    (listTargets resolve (addTargetLine (addTargetLine lines url) url)).count
        (resolve (pyStrip url)) = 1 ∧
    (listTargets resolve (addTargetLine (addTargetLine lines url) url)).Nodup := by
  have hnd : (listTargets resolve (addTargetLine (addTargetLine lines url) url)).Nodup :=
    listTargets_foldl_nodup resolve _ [] List.nodup_nil
  have hmem : resolve (pyStrip url) ∈
      listTargets resolve (addTargetLine (addTargetLine lines url) url) := by
    show resolve (pyStrip url) ∈
      ((lines ++ [url]) ++ [url]).foldl (listTargetsStep resolve) []
    rw [List.foldl_append, List.foldl_cons, List.foldl_nil]
    exact listTargetsStep_adds resolve _ url h1 h2
  exact ⟨List.count_eq_one_of_mem hnd hmem, hnd⟩

/-- Witness for C9: reading back after a double add of a concrete reference,
with resolution mapping a line to itself as identity. -/
theorem add_target_dedup_on_read_witness :
    (listTargets (fun s => (⟨s, s⟩ : TargetId))
        (addTargetLine (addTargetLine [] (pyOfString "https://x.example/s/1"))
          (pyOfString "https://x.example/s/1"))).count
      ((fun s => (⟨s, s⟩ : TargetId)) (pyStrip (pyOfString "https://x.example/s/1"))) = 1 ∧
    (listTargets (fun s => (⟨s, s⟩ : TargetId))
        (addTargetLine (addTargetLine [] (pyOfString "https://x.example/s/1"))
          (pyOfString "https://x.example/s/1"))).Nodup :=
  add_target_dedup_on_read (fun s => ⟨s, s⟩) [] (pyOfString "https://x.example/s/1")
    (by decide) (by decide)
